import Mathlib

/-!
Verification of the Glossary Checker term-matching and KPI engine.

Shallow embedding of the core functions of `src/app8a.py`:

* `count_terms` counts, for each glossary term, the occurrences of the
  regex `\b` + `re.escape(term.lower())` + `\b` in a haystack text, using
  Python `re.findall` semantics (left-to-right, non-overlapping scan; a
  zero-width match advances the scan position by one).
* `calculate_kpis` computes the utilization rate, the total counts and
  their discrepancy.
* `calculate_translation_coverage_rate` computes the coverage rate.
* `combined_results` builds the report rows for entries with at least one
  positive count.

Strings are modelled by Lean `String` / `List Char`; Python word
characters (`\w`) are modelled as ASCII alphanumerics plus underscore;
Python `str.lower` is modelled as the per-character ASCII lowercase map.
Rates (Python floats holding exact small fractions) are modelled as `ℚ`.
-/

/-- A word character in the sense of the regex `\b` boundary:
letters, digits, underscore (ASCII model of Python `\w`). -/
def isWordChar (c : Char) : Bool := c.isAlphanum || c == '_'

/-- Whether position `i` of `text` holds a word character
(out-of-range positions count as non-word). -/
def wordAt (text : List Char) (i : Nat) : Bool :=
  match text[i]? with
  | some c => isWordChar c
  | none => false

/-- Whether the position just before `i` holds a word character
(the position before the start counts as non-word). -/
def prevWordAt (text : List Char) (i : Nat) : Bool :=
  match i with
  | 0 => false
  | j + 1 => wordAt text j

/-- The regex `\b` assertion at position `i`: the character before `i` and
the character at `i` disagree on word-character-ness. -/
def boundaryAt (text : List Char) (i : Nat) : Bool :=
  prevWordAt text i != wordAt text i

/-- The pattern `\b` + literal `term` + `\b` matches at position `i` of
`text`: the literal characters of `term` occur at `i`, with a word
boundary right before and right after them. -/
def matchAt (text term : List Char) (i : Nat) : Bool :=
  decide ((text.drop i).take term.length = term)
    && boundaryAt text i && boundaryAt text (i + term.length)

/-- Python `re.findall` scanning loop for the pattern
`\b term \b`: from position `i`, on a match advance past it (the match
has the length of the literal term), otherwise advance by one; a
zero-width match of the empty pattern (`\b\b`) also advances by one.
`fuel` bounds the number of iterations; it is always called with enough
fuel (`text.length + 1 ≤ fuel + i`) to reach the end of the text. -/
def scan (text term : List Char) : Nat → Nat → Nat
  | 0, _ => 0
  | fuel + 1, i =>
    if i ≤ text.length then
      if term.isEmpty then
        (if boundaryAt text i then 1 else 0) + scan text term fuel (i + 1)
      else if matchAt text term i then
        1 + scan text term fuel (i + term.length)
      else
        scan text term fuel (i + 1)
    else 0

/-- ASCII lowercase map on one character (model of Python `str.lower`
restricted to ASCII). -/
def pyLowerChar (c : Char) : Char :=
  if 65 ≤ c.toNat ∧ c.toNat ≤ 90 then Char.ofNat (c.toNat + 32) else c

/-- Python `str.lower` on a whole string (ASCII model). -/
def pyLower (s : String) : String := ⟨s.data.map pyLowerChar⟩

/-- The count `len(re.findall(r'\b' + re.escape(term.lower()) + r'\b', text))`
computed by `count_terms` for one term. -/
def countTerm (text term : String) : Nat :=
  scan text.data (pyLower term).data (text.data.length + 1) 0

/-- `count_terms(text, terms)` of `app8a.py`: a `Counter` built by
assigning `counter[term] = len(matches)` for each term in order; a
missing key reads as 0. -/
def count_terms (text : String) (terms : List String) : String → Nat :=
  terms.foldl (fun acc term => fun t => if t = term then countTerm text term else acc t)
    (fun _ => 0)

/-- Specification-side count: the number of positions of `text` at which
the literal `term` occurs with a word boundary on both sides. -/
def wholeWordOccs (text term : List Char) : Nat :=
  ((Finset.range (text.length + 1)).filter (fun i => matchAt text term i = true)).card

/-- The record returned by `calculate_kpis`. -/
structure KPIResult where
  utilization_rate : ℚ
  total_count_discrepancy : Nat
  total_source_counts : Nat
  total_target_counts : Nat
  deriving Repr, DecidableEq

/-- `calculate_kpis(words, translations, source_counts, target_counts)` of
`app8a.py`.  Count mappings are modelled as total functions `String → ℕ`
(`Counter.get(key, 0)` semantics). -/
def calculate_kpis (words translations : List String)
    (source_counts target_counts : String → Nat) : KPIResult :=
  let utilized_terms_count :=
    ((words.zip translations).filter
      (fun p => decide (0 < source_counts p.1) && decide (0 < target_counts p.2))).length
  let total_glossary_terms := words.length
  let utilization_rate : ℚ :=
    if total_glossary_terms ≠ 0 then
      (utilized_terms_count : ℚ) / (total_glossary_terms : ℚ) * 100
    else 0
  let total_source_counts := (words.map source_counts).sum
  let total_target_counts := (translations.map target_counts).sum
  { utilization_rate := utilization_rate
    total_count_discrepancy := ((total_source_counts : ℤ) - (total_target_counts : ℤ)).natAbs
    total_source_counts := total_source_counts
    total_target_counts := total_target_counts }

/-- `calculate_translation_coverage_rate(words, translations, source_counts,
target_counts)` of `app8a.py`. -/
def calculate_translation_coverage_rate (words translations : List String)
    (source_counts target_counts : String → Nat) : ℚ :=
  let source_positive_terms :=
    (words.zip translations).filter (fun p => decide (0 < source_counts p.1))
  let translated_positive_count :=
    (source_positive_terms.filter (fun p => decide (0 < target_counts p.2))).length
  let total_source_positive := source_positive_terms.length
  if total_source_positive ≠ 0 then
    (translated_positive_count : ℚ) / (total_source_positive : ℚ) * 100
  else 0

/-- One report row of the `combined_results` table. -/
structure Row where
  word : String
  count_in_source : Nat
  translation : String
  count_in_target : Nat
  deriving Repr, DecidableEq

/-- The `combined_results` loop of `app8a.py`: for each glossary entry in
order, append a row when at least one of the two counts is positive. -/
def combined_results (words translations : List String)
    (source_counts target_counts : String → Nat) : List Row :=
  (words.zip translations).foldl
    (fun acc p =>
      if 0 < source_counts p.1 ∨ 0 < target_counts p.2 then
        acc ++ [⟨p.1, source_counts p.1, p.2, target_counts p.2⟩]
      else acc)
    []

/-- Specification-side: the number of glossary entry positions (over the
full entry list) whose source word has a positive source count. -/
def specSourcePositive (words : List String) (source_counts : String → Nat) : Nat :=
  (List.range words.length).countP (fun i => decide (0 < source_counts (words.getD i "")))

/-- Specification-side: the number of glossary entry positions whose source
word has a positive source count and whose translation has a positive
target count. -/
def specBothPositive (words translations : List String)
    (source_counts target_counts : String → Nat) : Nat :=
  (List.range words.length).countP
    (fun i => decide (0 < source_counts (words.getD i ""))
      && decide (0 < target_counts (translations.getD i "")))

/-- Specification-side: the number of glossary entry positions whose
translation has a positive target count (the spec's utilization
numerator, unconditional on source presence). -/
def specTargetPositive (words translations : List String)
    (target_counts : String → Nat) : Nat :=
  (List.range words.length).countP
    (fun i => decide (0 < target_counts (translations.getD i "")))

/-! ## Helper lemmas -/

lemma char_toNat_ofNat {n : Nat} (h : n.isValidChar) : (Char.ofNat n).toNat = n := by
  unfold Char.ofNat; rw [dif_pos h]; rfl

lemma pyLowerChar_idem (c : Char) : pyLowerChar (pyLowerChar c) = pyLowerChar c := by
  by_cases h : 65 ≤ c.toNat ∧ c.toNat ≤ 90
  · have hv : (c.toNat + 32).isValidChar := Or.inl (by omega)
    have h1 : pyLowerChar c = Char.ofNat (c.toNat + 32) := if_pos h
    have h2 : (Char.ofNat (c.toNat + 32)).toNat = c.toNat + 32 := char_toNat_ofNat hv
    rw [h1]
    unfold pyLowerChar
    rw [if_neg (by rw [h2]; omega)]
  · have h1 : pyLowerChar c = c := if_neg h
    rw [h1, h1]

lemma pyLower_idem (s : String) : pyLower (pyLower s) = pyLower s := by
  unfold pyLower
  simp only [List.map_map]
  rw [show pyLowerChar ∘ pyLowerChar = pyLowerChar from funext pyLowerChar_idem]

/-- Looking a term up in the `Counter` built by `count_terms`. -/
lemma count_terms_apply (text : String) (terms : List String) (t : String) :
    count_terms text terms t = if t ∈ terms then countTerm text t else 0 := by
  unfold count_terms
  suffices h : ∀ acc : String → Nat,
      (terms.foldl (fun acc term => fun t => if t = term then countTerm text term else acc t)
        acc) t
      = if t ∈ terms then countTerm text t else acc t from h _
  induction terms with
  | nil => intro acc; simp
  | cons hd tl ih =>
    intro acc
    simp only [List.foldl_cons]
    rw [ih]
    by_cases hmem : t ∈ tl
    · simp [hmem]
    · by_cases heq : t = hd
      · subst heq; simp [hmem]
      · simp [hmem, heq]

/-- Counting the entries of a zipped pair of lists that satisfy a
predicate equals counting the index positions (up to the shorter length)
whose components satisfy it. -/
lemma zip_filter_length_eq_countP (f : String → String → Bool) :
    ∀ ws ts : List String,
      ((ws.zip ts).filter (fun p => f p.1 p.2)).length =
        (List.range (min ws.length ts.length)).countP
          (fun i => f (ws.getD i "") (ts.getD i "")) := by
  intro ws
  induction ws with
  | nil => intro ts; simp
  | cons w ws ih =>
    intro ts
    cases ts with
    | nil => simp
    | cons t ts =>
      simp only [List.zip_cons_cons, List.length_cons, Nat.succ_min_succ,
        List.range_succ_eq_map, List.filter_cons, List.countP_cons, List.countP_map]
      have hmain : (List.filter (fun p => f p.1 p.2) (ws.zip ts)).length
          = (List.range (min ws.length ts.length)).countP
              ((fun i => f ((w :: ws).getD i "") ((t :: ts).getD i "")) ∘ Nat.succ) := by
        rw [ih ts]
        apply List.countP_congr
        intro i _
        simp [Function.comp]
      by_cases hf : f w t
      · rw [if_pos hf, List.length_cons, hmain]
        simp [hf, Nat.add_comm]
      · rw [if_neg hf, hmain]
        simp [hf]

/-- Characterization of the utilization rate for arbitrary (possibly
unequal-length) inputs: `zip` truncates the entry list to the shorter
length, while the denominator stays `words.length`. -/
lemma utilization_rate_eq (words translations : List String) (sc tc : String → Nat) :
    (calculate_kpis words translations sc tc).utilization_rate =
      if words.length = 0 then 0
      else ((List.range (min words.length translations.length)).countP
          (fun i => decide (0 < sc (words.getD i ""))
            && decide (0 < tc (translations.getD i ""))) : ℚ)
          * 100 / (words.length : ℚ) := by
  unfold calculate_kpis
  dsimp only
  rw [zip_filter_length_eq_countP (fun a b => decide (0 < sc a) && decide (0 < tc b))]
  by_cases h0 : words.length = 0
  · rw [if_neg (fun hh => hh h0), if_pos h0]
  · rw [if_pos h0, if_neg h0, div_mul_eq_mul_div]

/-- Characterization of the coverage rate for arbitrary (possibly
unequal-length) inputs: both numerator and denominator range over the
`zip`-truncated entry list. -/
lemma coverage_rate_eq (words translations : List String) (sc tc : String → Nat) :
    calculate_translation_coverage_rate words translations sc tc =
      if (List.range (min words.length translations.length)).countP
           (fun i => decide (0 < sc (words.getD i ""))) = 0 then 0
      else ((List.range (min words.length translations.length)).countP
          (fun i => decide (0 < sc (words.getD i ""))
            && decide (0 < tc (translations.getD i ""))) : ℚ)
          * 100
          / ((List.range (min words.length translations.length)).countP
              (fun i => decide (0 < sc (words.getD i ""))) : ℚ) := by
  unfold calculate_translation_coverage_rate
  dsimp only
  simp only [List.filter_filter]
  rw [zip_filter_length_eq_countP (fun a b => decide (0 < sc a))]
  rw [zip_filter_length_eq_countP (fun a b => decide (0 < tc b) && decide (0 < sc a))]
  have hn : (List.range (min words.length translations.length)).countP
        (fun i => decide (0 < tc (translations.getD i "")) && decide (0 < sc (words.getD i "")))
      = (List.range (min words.length translations.length)).countP
        (fun i => decide (0 < sc (words.getD i "")) && decide (0 < tc (translations.getD i ""))) := by
    apply List.countP_congr
    intro i _
    simp [Bool.and_comm]
  rw [hn]
  by_cases h0 : (List.range (min words.length translations.length)).countP
      (fun i => decide (0 < sc (words.getD i ""))) = 0
  · rw [if_neg (fun hh => hh h0), if_pos h0]
  · rw [if_pos h0, if_neg h0, div_mul_eq_mul_div]

/-- A ratio of the form `U / T * 100` with `U ≤ T` is a percentage in
`[0, 100]` (and the `T = 0` fallback is 0). -/
lemma rate_bounds (U T : Nat) (hUT : U ≤ T) :
    0 ≤ (if T ≠ 0 then (U : ℚ) / (T : ℚ) * 100 else 0)
      ∧ (if T ≠ 0 then (U : ℚ) / (T : ℚ) * 100 else 0) ≤ 100 := by
  by_cases h : T = 0
  · simp [h]
  · rw [if_pos h]
    have hT : (0 : ℚ) < T := by
      have := Nat.pos_of_ne_zero h
      exact_mod_cast this
    have hUT' : (U : ℚ) ≤ (T : ℚ) := by exact_mod_cast hUT
    constructor
    · positivity
    · calc (U : ℚ) / T * 100 ≤ (T : ℚ) / T * 100 := by gcongr
        _ = 100 := by rw [div_self hT.ne']; ring

/-- A left fold that conditionally appends one transformed element equals
appending the filtered-and-mapped list. -/
lemma foldl_append_eq_filter_map {α β : Type} (p : α → Prop) [DecidablePred p] (g : α → β) :
    ∀ (l : List α) (acc : List β),
      l.foldl (fun acc x => if p x then acc ++ [g x] else acc) acc
        = acc ++ (l.filter (fun x => decide (p x))).map g := by
  intro l
  induction l with
  | nil => intro acc; simp
  | cons x l ih =>
    intro acc
    simp only [List.foldl_cons, List.filter_cons]
    by_cases h : p x
    · rw [if_pos h, ih]
      simp [h]
    · rw [if_neg h, ih]
      simp [h]

/-! ## Claim theorems -/

/-- Claim C1, counterexample.  The claim states the utilization rate is the
percentage of entries whose translation has a positive target count,
regardless of the source count.  For the single entry `("a", "b")` with
source count 0 and target count 1, the code returns a utilization rate of
0, while the claim's target-side formula yields 100: the code additionally
requires the source word to have a positive source count. -/
theorem c1_counterexample :
    (calculate_kpis ["a"] ["b"] (fun _ => 0) (fun _ => 1)).utilization_rate = 0 ∧
    (specTargetPositive ["a"] ["b"] (fun _ => 1) : ℚ) * 100
      / ((["a"] : List String).length : ℚ) = 100 := by
  constructor
  · rw [utilization_rate_eq]
    simp
  · rw [show specTargetPositive ["a"] ["b"] (fun _ => 1) = 1 from by decide]
    simp

/-- Claim C1, amended.  For equal-length lists, the utilization rate returned
by `calculate_kpis` is 100 times the number of entries whose source word
has a positive source count **and** whose translation has a positive
target count, divided by the total number of entries; with zero entries
the rate is 0.  (An entry with zero source occurrences does *not* count,
contrary to the original claim.) -/
theorem c1_amended (words translations : List String) (sc tc : String → Nat)
    (h : words.length = translations.length) :
    (calculate_kpis words translations sc tc).utilization_rate =
      if words.length = 0 then 0
      else (specBothPositive words translations sc tc : ℚ) * 100 / (words.length : ℚ) := by
  rw [utilization_rate_eq]
  rw [show min words.length translations.length = words.length by omega]
  rfl

/-- Witness for `c1_amended` at a concrete input. -/
theorem c1_witness :
    (calculate_kpis ["a"] ["b"] (fun _ => 1) (fun _ => 1)).utilization_rate = 100 := by
  rw [c1_amended ["a"] ["b"] (fun _ => 1) (fun _ => 1) rfl]
  rw [show specBothPositive ["a"] ["b"] (fun _ => 1) (fun _ => 1) = 1 from by decide]
  simp

/-- Claim C4, counterexample.  The claim states that with unequal-length
lists the KPI computation fails fast with an error and does not return a
`KPIResult`.  The code performs no length check: with `words = ["a","b"]`
and `translations = ["x"]` (both counts everywhere 1) it silently
`zip`-truncates and returns a `KPIResult` with utilization rate
`1/2 * 100 = 50`, and a coverage rate of 100. -/
theorem c4_counterexample :
    (calculate_kpis ["a", "b"] ["x"] (fun _ => 1) (fun _ => 1)).utilization_rate = 50 ∧
    calculate_translation_coverage_rate ["a", "b"] ["x"] (fun _ => 1) (fun _ => 1) = 100 := by
  constructor
  · rw [utilization_rate_eq]
    rw [show (List.range (min (["a", "b"] : List String).length (["x"] : List String).length)).countP
        (fun i => decide (0 < (fun _ => 1) ((["a", "b"] : List String).getD i ""))
          && decide (0 < (fun _ => 1) ((["x"] : List String).getD i ""))) = 1 from by decide]
    simp
    norm_num
  · rw [coverage_rate_eq]
    rw [show (List.range (min (["a", "b"] : List String).length (["x"] : List String).length)).countP
        (fun i => decide (0 < (fun _ => 1) ((["a", "b"] : List String).getD i ""))) = 1 from by decide]
    rw [show (List.range (min (["a", "b"] : List String).length (["x"] : List String).length)).countP
        (fun i => decide (0 < (fun _ => 1) ((["a", "b"] : List String).getD i ""))
          && decide (0 < (fun _ => 1) ((["x"] : List String).getD i ""))) = 1 from by decide]
    simp

/-- Claim C4, amended.  `calculate_kpis` and
`calculate_translation_coverage_rate` perform no length validation and
never fail: for lists of any lengths they return a result in which the
entry list is silently `zip`-truncated to the shorter length (the
utilization denominator remains `len(words)`). -/
theorem c4_amended (words translations : List String) (sc tc : String → Nat) :
    (calculate_kpis words translations sc tc).utilization_rate =
      (if words.length = 0 then 0
       else ((List.range (min words.length translations.length)).countP
          (fun i => decide (0 < sc (words.getD i ""))
            && decide (0 < tc (translations.getD i ""))) : ℚ)
          * 100 / (words.length : ℚ)) ∧
    calculate_translation_coverage_rate words translations sc tc =
      (if (List.range (min words.length translations.length)).countP
           (fun i => decide (0 < sc (words.getD i ""))) = 0 then 0
       else ((List.range (min words.length translations.length)).countP
          (fun i => decide (0 < sc (words.getD i ""))
            && decide (0 < tc (translations.getD i ""))) : ℚ)
          * 100
          / ((List.range (min words.length translations.length)).countP
              (fun i => decide (0 < sc (words.getD i ""))) : ℚ)) :=
  ⟨utilization_rate_eq words translations sc tc, coverage_rate_eq words translations sc tc⟩

/-- Claim C5, confirmed.  For equal-length lists, the coverage rate is 100
times the number of entries with positive source count and positive
target count, divided by the number of entries with positive source
count; when no entry has a positive source count the rate is 0 regardless
of target counts (entries with zero source count are excluded from both
numerator and denominator). -/
theorem c5_coverage_rate (words translations : List String) (sc tc : String → Nat)
    (h : words.length = translations.length) :
    calculate_translation_coverage_rate words translations sc tc =
      if specSourcePositive words sc = 0 then 0
      else (specBothPositive words translations sc tc : ℚ) * 100
        / (specSourcePositive words sc : ℚ) := by
  rw [coverage_rate_eq]
  rw [show min words.length translations.length = words.length by omega]
  rfl

/-- Witness for `c5_coverage_rate`: the spec's own scenario — glossary
`[("cat","gato"), ("dog","perro")]`, source counts `{cat: 1, dog: 0}`,
target counts `{gato: 1, perro: 1}` — gives coverage 100%. -/
theorem c5_witness :
    calculate_translation_coverage_rate ["cat", "dog"] ["gato", "perro"]
      (fun w => if w = "cat" then 1 else 0)
      (fun t => if t = "gato" ∨ t = "perro" then 1 else 0) = 100 := by
  rw [c5_coverage_rate ["cat", "dog"] ["gato", "perro"]
    (fun w => if w = "cat" then 1 else 0)
    (fun t => if t = "gato" ∨ t = "perro" then 1 else 0) rfl]
  rw [show specSourcePositive ["cat", "dog"] (fun w => if w = "cat" then 1 else 0) = 1
    from by decide]
  rw [show specBothPositive ["cat", "dog"] ["gato", "perro"]
    (fun w => if w = "cat" then 1 else 0)
    (fun t => if t = "gato" ∨ t = "perro" then 1 else 0) = 1 from by decide]
  norm_num

/-- Claim C6, confirmed.  Both rates are percentages in `[0, 100]`; when a
denominator is zero (empty glossary for utilization, no positive-source
entries for coverage) the rate is exactly 0 — the rates are total
`ℚ`-valued functions, never undefined. -/
theorem c6_rates_bounded (words translations : List String) (sc tc : String → Nat) :
    (0 ≤ (calculate_kpis words translations sc tc).utilization_rate ∧
      (calculate_kpis words translations sc tc).utilization_rate ≤ 100) ∧
    (0 ≤ calculate_translation_coverage_rate words translations sc tc ∧
      calculate_translation_coverage_rate words translations sc tc ≤ 100) ∧
    (words = [] → (calculate_kpis words translations sc tc).utilization_rate = 0) ∧
    ((∀ w ∈ words, sc w = 0) →
      calculate_translation_coverage_rate words translations sc tc = 0) := by
  refine ⟨?_, ?_, ?_, ?_⟩
  · unfold calculate_kpis
    dsimp only
    apply rate_bounds
    apply le_trans (List.length_filter_le _ _)
    rw [List.length_zip]
    omega
  · unfold calculate_translation_coverage_rate
    dsimp only
    exact rate_bounds _ _ (List.length_filter_le _ _)
  · intro hw
    subst hw
    simp [calculate_kpis]
  · intro hzero
    unfold calculate_translation_coverage_rate
    dsimp only
    have hnil : (words.zip translations).filter (fun p => decide (0 < sc p.1)) = [] := by
      apply List.filter_eq_nil_iff.mpr
      intro p hp
      obtain ⟨a, b⟩ := p
      have ha : a ∈ words := (List.of_mem_zip hp).1
      simp [hzero a ha]
    rw [hnil]
    simp

/-- Witness for `c6_rates_bounded`: with an empty glossary the utilization
rate is 0, and with all-zero source counts the coverage rate is 0. -/
theorem c6_witness :
    (calculate_kpis [] [] (fun _ => 0) (fun _ => 0)).utilization_rate = 0 ∧
    calculate_translation_coverage_rate ["a"] ["b"] (fun _ => 0) (fun _ => 1) = 0 :=
  ⟨(c6_rates_bounded [] [] (fun _ => 0) (fun _ => 0)).2.2.1 rfl,
   (c6_rates_bounded ["a"] ["b"] (fun _ => 0) (fun _ => 1)).2.2.2 (fun _ _ => rfl)⟩

/-- Claim C7, confirmed.  The report rows are exactly the glossary entries
with at least one positive count, as rows in glossary entry order: the
accumulating loop equals `filter` (which keeps entry order and keeps
exactly the entries satisfying the condition) followed by `map`. -/
theorem c7_report_rows (words translations : List String) (sc tc : String → Nat) :
    combined_results words translations sc tc =
      ((words.zip translations).filter
        (fun p => decide (0 < sc p.1 ∨ 0 < tc p.2))).map
        (fun p => ⟨p.1, sc p.1, p.2, tc p.2⟩) := by
  unfold combined_results
  rw [foldl_append_eq_filter_map (fun p : String × String => 0 < sc p.1 ∨ 0 < tc p.2)
    (fun p => (⟨p.1, sc p.1, p.2, tc p.2⟩ : Row)) (words.zip translations) []]
  simp

/-- Claim C10, confirmed.  For equal-length lists the coverage rate is at
least the utilization rate: both numerators are the count of entries
positive on both sides, and the coverage denominator (positive-source
entries) is at most the utilization denominator (all entries). -/
theorem c10_coverage_ge_utilization (words translations : List String)
    (sc tc : String → Nat) (h : words.length = translations.length) :
    (calculate_kpis words translations sc tc).utilization_rate ≤
      calculate_translation_coverage_rate words translations sc tc := by
  rw [utilization_rate_eq, coverage_rate_eq]
  rw [show min words.length translations.length = words.length by omega]
  set N := (List.range words.length).countP
    (fun i => decide (0 < sc (words.getD i "")) && decide (0 < tc (translations.getD i "")))
    with hN
  set d := (List.range words.length).countP (fun i => decide (0 < sc (words.getD i "")))
    with hd
  have hNd : N ≤ d := by
    rw [hN, hd]
    apply List.countP_mono_left
    intro i _ hb
    rw [Bool.and_eq_true] at hb
    exact hb.1
  have hdlen : d ≤ words.length := by
    calc d ≤ (List.range words.length).length := by rw [hd]; exact List.countP_le_length _
      _ = words.length := List.length_range _
  by_cases h0 : words.length = 0
  · rw [if_pos h0, if_pos (by omega)]
  · rw [if_neg h0]
    by_cases hd0 : d = 0
    · rw [if_pos hd0]
      rw [show N = 0 by omega]
      simp
    · rw [if_neg hd0]
      have hdQ : (0 : ℚ) < d := by exact_mod_cast Nat.pos_of_ne_zero hd0
      gcongr

/-- Witness for `c10_coverage_ge_utilization` at a concrete input. -/
theorem c10_witness :
    (calculate_kpis ["a"] ["b"] (fun _ => 1) (fun _ => 0)).utilization_rate ≤
      calculate_translation_coverage_rate ["a"] ["b"] (fun _ => 1) (fun _ => 0) :=
  c10_coverage_ge_utilization ["a"] ["b"] (fun _ => 1) (fun _ => 0) rfl

/-- Claim C2, code bug.  The claim — an empty-string term counts as 0
occurrences for every haystack — is the documented intent, but the code
builds the pattern `\b` + `\b` for an empty term, a zero-width pattern
that matches at every word-boundary position of the haystack: on the
text `"a"` (boundaries at positions 0 and 1) the code returns 2, not 0. -/
theorem c2_empty_term_eval : count_terms "a" [""] "" = 2 := by decide

/-- Claim C9, confirmed.  `count_terms` lowercases each query term before
matching but not the haystack: each term gets the same count as its
lowercased form queried on the lowercased term list, while occurrences
spelled with uppercase letters in the haystack are not counted
(`"Art b"` yields 0 for term `"art"`, `"art b"` yields 1), and an
uppercase term is lowercased before matching (`"Art"` counts the
lowercase occurrence in `"art b"`). -/
theorem c9_term_lowercasing :
    (∀ (text : String) (terms : List String) (t : String), t ∈ terms →
        count_terms text terms t = count_terms text (terms.map pyLower) (pyLower t)) ∧
      count_terms "Art b" ["art"] "art" = 0 ∧
      count_terms "art b" ["art"] "art" = 1 ∧
      count_terms "art b" ["Art"] "Art" = 1 := by
  refine ⟨?_, by decide, by decide, by decide⟩
  intro text terms t ht
  rw [count_terms_apply, count_terms_apply]
  rw [if_pos ht, if_pos (List.mem_map_of_mem pyLower ht)]
  unfold countTerm
  rw [pyLower_idem]

/-- Witness for `c9_term_lowercasing` at a concrete input. -/
theorem c9_witness :
    count_terms "x art" ["Art"] "Art"
      = count_terms "x art" (["Art"].map pyLower) (pyLower "Art") :=
  c9_term_lowercasing.1 "x art" ["Art"] "Art" (by decide)

/-! ## Word-boundary matching lemmas (for C3 and C8) -/

lemma matchAt_iff {t wd : List Char} {i : Nat} :
    matchAt t wd i = true ↔
      (t.drop i).take wd.length = wd ∧ boundaryAt t i = true
        ∧ boundaryAt t (i + wd.length) = true := by
  simp [matchAt, Bool.and_eq_true, and_assoc]

/-- A match of a non-empty term fits inside the text. -/
lemma matchAt_sub_le {t wd : List Char} {i : Nat} (hwd : wd ≠ [])
    (h : matchAt t wd i = true) : i + wd.length ≤ t.length := by
  have hsub := (matchAt_iff.mp h).1
  have hlen : wd.length = min wd.length (t.length - i) := by
    conv_lhs => rw [← hsub]
    rw [List.length_take, List.length_drop]
  have h1 : wd.length ≤ t.length - i := by
    rw [hlen]
    exact Nat.min_le_right _ _
  have h2 : 1 ≤ wd.length := List.length_pos.mpr hwd
  omega

/-- Inside a match, the text agrees with the term character by character. -/
lemma matchAt_getElem {t wd : List Char} {i k : Nat} (h : matchAt t wd i = true)
    (hk : k < wd.length) : t[i + k]? = wd[k]? := by
  have hsub := (matchAt_iff.mp h).1
  calc t[i + k]? = (t.drop i)[k]? := (List.getElem?_drop t i k).symm
    _ = ((t.drop i).take wd.length)[k]? := (List.getElem?_take_of_lt hk).symm
    _ = wd[k]? := by rw [hsub]

lemma wd_getElem_word {wd : List Char} (hchars : ∀ c ∈ wd, isWordChar c = true)
    {k : Nat} (hk : k < wd.length) :
    ∃ c, wd[k]? = some c ∧ isWordChar c = true :=
  ⟨wd[k], List.getElem?_eq_getElem hk, hchars _ (List.getElem_mem hk)⟩

/-- For a term made only of word characters, two distinct matches cannot
overlap: inside a match every position has a word character on both
sides, so no word boundary can occur there. -/
lemma matchAt_no_overlap {t wd : List Char} (hchars : ∀ c ∈ wd, isWordChar c = true)
    {i j : Nat} (hi : matchAt t wd i = true) (hj : matchAt t wd j = true)
    (hij : i < j) : i + wd.length ≤ j := by
  by_contra hcon
  push_neg at hcon
  obtain ⟨m, rfl⟩ : ∃ m, j = m + 1 := ⟨j - 1, by omega⟩
  have hjlen : m + 1 - i < wd.length := by omega
  obtain ⟨c, hc, hcw⟩ := wd_getElem_word hchars hjlen
  have h1 : t[m + 1]? = some c := by
    have hg := matchAt_getElem hi hjlen
    rw [show i + (m + 1 - i) = m + 1 by omega] at hg
    rw [hg, hc]
  have hword : wordAt t (m + 1) = true := by
    simp [wordAt, h1, hcw]
  have hmlen : m - i < wd.length := by omega
  obtain ⟨c', hc', hcw'⟩ := wd_getElem_word hchars hmlen
  have h2 : t[m]? = some c' := by
    have hg := matchAt_getElem hi hmlen
    rw [show i + (m - i) = m by omega] at hg
    rw [hg, hc']
  have hprev : prevWordAt t (m + 1) = true := by
    show wordAt t m = true
    simp [wordAt, h2, hcw']
  have hb := (matchAt_iff.mp hj).2.1
  unfold boundaryAt at hb
  rw [hprev, hword] at hb
  simp at hb

/-- With enough fuel, the non-overlapping `re.findall` scan of a
non-empty all-word-character term counts exactly the boundary-valid
match positions at or after the scan position. -/
lemma scan_eq_card {t wd : List Char} (hwd : wd ≠ [])
    (hchars : ∀ c ∈ wd, isWordChar c = true) :
    ∀ fuel i, t.length + 1 ≤ fuel + i →
      scan t wd fuel i =
        ((Finset.range (t.length + 1)).filter
          (fun p => i ≤ p ∧ matchAt t wd p = true)).card := by
  intro fuel
  induction fuel with
  | zero =>
    intro i hi
    rw [show scan t wd 0 i = 0 from rfl]
    symm
    rw [Finset.card_eq_zero]
    apply Finset.filter_eq_empty_iff.mpr
    intro p hp
    simp only [Finset.mem_range] at hp
    rintro ⟨hip, -⟩
    omega
  | succ fuel ih =>
    intro i hi
    by_cases hil : i ≤ t.length
    · rw [scan, if_pos hil,
        if_neg (fun hh : wd.isEmpty = true => hwd (List.isEmpty_iff.mp hh))]
      by_cases hm : matchAt t wd i = true
      · rw [if_pos hm]
        have hlen : 1 ≤ wd.length := List.length_pos.mpr hwd
        rw [ih (i + wd.length) (by omega)]
        have hins : (Finset.range (t.length + 1)).filter
              (fun p => i ≤ p ∧ matchAt t wd p = true)
            = insert i ((Finset.range (t.length + 1)).filter
              (fun p => i + wd.length ≤ p ∧ matchAt t wd p = true)) := by
          ext p
          simp only [Finset.mem_filter, Finset.mem_range, Finset.mem_insert]
          constructor
          · rintro ⟨hp, hip, hmp⟩
            by_cases hpi : p = i
            · exact Or.inl hpi
            · exact Or.inr ⟨hp, matchAt_no_overlap hchars hm hmp (by omega), hmp⟩
          · rintro (rfl | ⟨hp, hip, hmp⟩)
            · exact ⟨by omega, le_refl p, hm⟩
            · exact ⟨hp, by omega, hmp⟩
        rw [hins, Finset.card_insert_of_not_mem]
        · omega
        · simp only [Finset.mem_filter, Finset.mem_range, not_and]
          intro _ hip
          omega
      · rw [if_neg hm]
        rw [ih (i + 1) (by omega)]
        congr 1
        apply Finset.filter_congr
        intro p hp
        simp only [Finset.mem_range] at hp
        constructor
        · rintro ⟨hip, hmp⟩
          exact ⟨by omega, hmp⟩
        · rintro ⟨hip, hmp⟩
          refine ⟨?_, hmp⟩
          rcases Nat.lt_or_ge i p with hlt | hge
          · omega
          · exact absurd (by rw [show i = p by omega]; exact hmp) hm
    · rw [scan, if_neg hil]
      symm
      rw [Finset.card_eq_zero]
      apply Finset.filter_eq_empty_iff.mpr
      intro p hp
      simp only [Finset.mem_range] at hp
      rintro ⟨hip, -⟩
      omega

/-- For a non-empty, already-lowercase term made only of word characters,
the code's count equals the number of boundary-valid occurrence
positions. -/
lemma countTerm_eq_wholeWordOccs {T w : String} (hw : w ≠ "")
    (hchars : ∀ c ∈ w.data, isWordChar c = true) (hlow : pyLower w = w) :
    countTerm T w = wholeWordOccs T.data w.data := by
  unfold countTerm
  rw [hlow]
  have hwd : w.data ≠ [] := fun hh => hw (by
    cases w
    simp only at hh
    rw [hh])
  rw [scan_eq_card hwd hchars (T.data.length + 1) 0 (by omega)]
  unfold wholeWordOccs
  congr 1
  apply Finset.filter_congr
  intro p _
  simp

/-- Claim C3, counterexample.  Read as "the count is the number of positions
at which the term occurs as a whole word", the claim fails for terms that
are not pure word-character runs: the multi-word term `"a a"` occurs with
valid boundaries at two (overlapping) positions of `"a a a"`, but the
left-to-right non-overlapping `re.findall` scan counts only 1.  It also
fails for terms containing uppercase letters, which the code lowercases
first: `"B"` never occurs literally in `"b"`, yet the code counts 1. -/
theorem c3_counterexample :
    (countTerm "a a a" "a a" = 1 ∧ wholeWordOccs "a a a".data "a a".data = 2) ∧
    (countTerm "b" "B" = 1 ∧ wholeWordOccs "b".data "B".data = 0) := by
  refine ⟨⟨by decide, by decide⟩, ⟨by decide, by decide⟩⟩

/-- Claim C3, amended.  For every haystack and every non-empty,
already-lowercase term consisting only of word characters, `countTerm`
returns exactly the number of positions at which the term occurs
literally with no word character immediately before or after it (for
such terms valid occurrences cannot overlap, so the non-overlapping scan
finds them all). -/
theorem c3_whole_word_count (text term : String) (h1 : term ≠ "")
    (h2 : ∀ c ∈ term.data, isWordChar c = true) (h3 : pyLower term = term) :
    countTerm text term = wholeWordOccs text.data term.data :=
  countTerm_eq_wholeWordOccs h1 h2 h3

/-- Witness for `c3_whole_word_count`: the spec's own examples — term
`"art"` counts 0 in `"particle"` and 1 in `"a art b"`. -/
theorem c3_witness :
    (countTerm "particle" "art" = wholeWordOccs "particle".data "art".data ∧
      wholeWordOccs "particle".data "art".data = 0) ∧
    (countTerm "a art b" "art" = wholeWordOccs "a art b".data "art".data ∧
      wholeWordOccs "a art b".data "art".data = 1) :=
  ⟨⟨c3_whole_word_count "particle" "art" (by decide) (by decide) (by decide), by decide⟩,
   ⟨c3_whole_word_count "a art b" "art" (by decide) (by decide) (by decide), by decide⟩⟩

lemma string_data_ne_nil {w : String} (hw : w ≠ "") : w.data ≠ [] := fun hh => hw (by
  cases w
  simp only at hh
  rw [hh])

/-- Appending `' ' :: wd` to the text does not change word-character-ness
at positions up to the old length (position `t.length` becomes the
non-word `' '`, matching the former out-of-range reading). -/
lemma wordAt_append {t wd : List Char} {j : Nat} (hj : j ≤ t.length) :
    wordAt (t ++ ' ' :: wd) j = wordAt t j := by
  rcases Nat.lt_or_ge j t.length with hlt | hge
  · unfold wordAt
    rw [List.getElem?_append_left hlt]
  · have hje : j = t.length := by omega
    subst hje
    unfold wordAt
    rw [List.getElem?_append_right (le_refl _), Nat.sub_self,
      List.getElem?_eq_none (le_refl _), List.getElem?_cons_zero]
    decide

lemma boundaryAt_append {t wd : List Char} {i : Nat} (hi : i ≤ t.length) :
    boundaryAt (t ++ ' ' :: wd) i = boundaryAt t i := by
  unfold boundaryAt
  rw [wordAt_append hi]
  congr 1
  cases i with
  | zero => rfl
  | succ j =>
    show wordAt (t ++ ' ' :: wd) j = wordAt t j
    exact wordAt_append (by omega)

/-- Appending `' ' :: wd` creates no new match and destroys no match at
positions up to the old length. -/
lemma matchAt_append_low {t wd : List Char}
    (hchars : ∀ c ∈ wd, isWordChar c = true) {i : Nat} (hi : i ≤ t.length) :
    matchAt (t ++ ' ' :: wd) wd i = matchAt t wd i := by
  rcases le_or_lt (i + wd.length) t.length with hle | hgt
  · have hsub : ((t ++ ' ' :: wd).drop i).take wd.length = (t.drop i).take wd.length := by
      rw [List.drop_append_of_le_length hi]
      exact List.take_append_of_le_length (by rw [List.length_drop]; omega)
    unfold matchAt
    rw [hsub, boundaryAt_append hi, boundaryAt_append hle]
  · have hfalse1 : ¬ ((t.drop i).take wd.length = wd) := by
      intro hh
      have hlen := congrArg List.length hh
      rw [List.length_take, List.length_drop] at hlen
      have hmin := Nat.min_le_right wd.length (t.length - i)
      rw [hlen] at hmin
      omega
    have hfalse2 : ¬ (((t ++ ' ' :: wd).drop i).take wd.length = wd) := by
      intro hh
      have hklen : t.length - i < wd.length := by omega
      have h1 : (((t ++ ' ' :: wd).drop i).take wd.length)[t.length - i]?
          = wd[t.length - i]? := by rw [hh]
      rw [List.getElem?_take_of_lt hklen, List.getElem?_drop] at h1
      rw [show i + (t.length - i) = t.length by omega] at h1
      rw [List.getElem?_append_right (le_refl _), Nat.sub_self] at h1
      obtain ⟨c, hc, hcw⟩ := wd_getElem_word hchars hklen
      rw [hc] at h1
      simp only [List.getElem?_cons_zero, Option.some.injEq] at h1
      rw [← h1] at hcw
      exact absurd hcw (by decide)
    unfold matchAt
    rw [decide_eq_false hfalse1, decide_eq_false hfalse2]
    simp

/-- The appended copy of the term matches at position `t.length + 1`. -/
lemma matchAt_append_new {t wd : List Char} (hwd : wd ≠ [])
    (hchars : ∀ c ∈ wd, isWordChar c = true) :
    matchAt (t ++ ' ' :: wd) wd (t.length + 1) = true := by
  rw [matchAt_iff]
  refine ⟨?_, ?_, ?_⟩
  · have hdrop : (t ++ ' ' :: wd).drop (t.length + 1) = wd := by
      rw [show t ++ ' ' :: wd = (t ++ [' ']) ++ wd by simp]
      rw [show t.length + 1 = (t ++ [' ']).length by simp]
      exact List.drop_left _ _
    rw [hdrop, List.take_length]
  · unfold boundaryAt
    have hprev : prevWordAt (t ++ ' ' :: wd) (t.length + 1) = false := by
      show wordAt (t ++ ' ' :: wd) t.length = false
      unfold wordAt
      rw [List.getElem?_append_right (le_refl _), Nat.sub_self, List.getElem?_cons_zero]
      decide
    have hcurr : wordAt (t ++ ' ' :: wd) (t.length + 1) = true := by
      unfold wordAt
      rw [List.getElem?_append_right (by omega),
        show t.length + 1 - t.length = 1 by omega, List.getElem?_cons_succ]
      obtain ⟨c, hc, hcw⟩ := wd_getElem_word hchars (List.length_pos.mpr hwd)
      rw [hc]
      exact hcw
    rw [hprev, hcurr]
    rfl
  · have hlen' : (t ++ ' ' :: wd).length = t.length + 1 + wd.length := by
      simp only [List.length_append, List.length_cons]
      omega
    unfold boundaryAt
    rw [show t.length + 1 + wd.length = (t.length + wd.length) + 1 by omega]
    have hprev : prevWordAt (t ++ ' ' :: wd) ((t.length + wd.length) + 1) = true := by
      show wordAt (t ++ ' ' :: wd) (t.length + wd.length) = true
      unfold wordAt
      rw [List.getElem?_append_right (by omega),
        show t.length + wd.length - t.length = wd.length by omega]
      have hwlen : 1 ≤ wd.length := List.length_pos.mpr hwd
      rw [show wd.length = (wd.length - 1) + 1 by omega, List.getElem?_cons_succ]
      obtain ⟨c, hc, hcw⟩ := wd_getElem_word hchars (show wd.length - 1 < wd.length by omega)
      rw [hc]
      exact hcw
    have hcurr : wordAt (t ++ ' ' :: wd) ((t.length + wd.length) + 1) = false := by
      unfold wordAt
      rw [List.getElem?_eq_none (by rw [hlen']; omega)]
    rw [hprev, hcurr]
    rfl

/-- Appending a space and then the term adds exactly one boundary-valid
occurrence position. -/
lemma wholeWordOccs_append {t wd : List Char} (hwd : wd ≠ [])
    (hchars : ∀ c ∈ wd, isWordChar c = true) :
    wholeWordOccs (t ++ ' ' :: wd) wd = wholeWordOccs t wd + 1 := by
  unfold wholeWordOccs
  have hlen' : (t ++ ' ' :: wd).length = t.length + 1 + wd.length := by
    simp only [List.length_append, List.length_cons]
    omega
  have hset : (Finset.range ((t ++ ' ' :: wd).length + 1)).filter
        (fun p => matchAt (t ++ ' ' :: wd) wd p = true)
      = insert (t.length + 1)
        ((Finset.range (t.length + 1)).filter (fun p => matchAt t wd p = true)) := by
    ext p
    simp only [Finset.mem_filter, Finset.mem_range, Finset.mem_insert]
    constructor
    · rintro ⟨hp, hmp⟩
      have hple := matchAt_sub_le hwd hmp
      rw [hlen'] at hple
      by_cases hpe : p = t.length + 1
      · exact Or.inl hpe
      · have hpt : p ≤ t.length := by omega
        exact Or.inr ⟨by omega, by rw [← matchAt_append_low hchars hpt]; exact hmp⟩
    · rintro (rfl | ⟨hp, hmp⟩)
      · exact ⟨by omega, matchAt_append_new hwd hchars⟩
      · have hpt : p ≤ t.length := by omega
        refine ⟨by omega, ?_⟩
        rw [matchAt_append_low hchars hpt]
        exact hmp
  rw [hset, Finset.card_insert_of_not_mem (by simp)]

/-- Claim C8, counterexample.  Appending "one additional exact occurrence"
of the term by plain concatenation does not always increase the count by
1: `"p" ++ "art" = "part"` still contains no whole-word `"art"` (count
stays 0, not 1).  Even with a separating space the increment fails for a
term that is not a pure word-character run (`"-"` has no word boundary
next to it, count stays 0) or that contains uppercase letters (the code
lowercases the term but not the appended text, count stays 0). -/
theorem c8_counterexample :
    (countTerm "p" "art" = 0 ∧ countTerm ("p" ++ "art") "art" = 0) ∧
    (countTerm "" "-" = 0 ∧ countTerm ("" ++ " " ++ "-") "-" = 0) ∧
    (countTerm "x" "Art" = 0 ∧ countTerm ("x" ++ " " ++ "Art") "Art" = 0) :=
  ⟨⟨by decide, by decide⟩, ⟨by decide, by decide⟩, ⟨by decide, by decide⟩⟩

/-- Claim C8, amended.  For every text `T` and every non-empty,
already-lowercase term `w` consisting only of word characters, appending
one additional occurrence of `w` separated by a space (`T ++ " " ++ w`)
increases the count returned by the code by exactly 1. -/
theorem c8_append_occurrence (T w : String) (h1 : w ≠ "")
    (h2 : ∀ c ∈ w.data, isWordChar c = true) (h3 : pyLower w = w) :
    countTerm (T ++ " " ++ w) w = countTerm T w + 1 := by
  rw [countTerm_eq_wholeWordOccs h1 h2 h3, countTerm_eq_wholeWordOccs h1 h2 h3]
  have hdata : (T ++ " " ++ w).data = T.data ++ ' ' :: w.data := by
    rw [String.data_append, String.data_append,
      show (" " : String).data = [' '] by decide, List.append_assoc]
    rfl
  rw [hdata]
  exact wholeWordOccs_append (string_data_ne_nil h1) h2

/-- Witness for `c8_append_occurrence`: appending `" art"` to `"x"` takes
the count of `"art"` from 0 to 1. -/
theorem c8_witness :
    countTerm ("x" ++ " " ++ "art") "art" = countTerm "x" "art" + 1 ∧
    countTerm "x" "art" = 0 :=
  ⟨c8_append_occurrence "x" "art" (by decide) (by decide) (by decide), by decide⟩
